import Mathlib

/-!
Shallow embedding of the document-layout core of `src/qpp5.py`: the
algorithm-text normalizer inside `generate_pdf` (the "Algorithm
Processor" loop), the section builder that assembles the flowable story,
the custom `PushToBottomSpacer.wrap` space negotiation, the output-label
stripping, and the per-page `draw_decorations` callback.

Python strings are modelled as `List Char`.  Python's whitespace class
(`str.strip`, the regex class for whitespace), the digit class, and
lowercasing are modelled on the ASCII range, which covers every literal
the program manipulates.  Floating-point page geometry is modelled with
exact rationals.
-/

/-- The characters of a string literal. -/
def str (s : String) : List Char := s.data

/-- ASCII whitespace as recognised by Python `str.strip` and the
whitespace class of the regexes in `generate_pdf`
(space, tab, newline, carriage return, vertical tab, form feed). -/
def isPySpace (c : Char) : Bool :=
  c == ' ' || c == '\t' || c == '\n' || c == '\r' || c == Char.ofNat 11 || c == Char.ofNat 12

/-- Python `str.strip()`: drop leading and trailing whitespace. -/
def pyStrip (s : List Char) : List Char :=
  ((s.dropWhile isPySpace).reverse.dropWhile isPySpace).reverse

/-- Python `str.split('\n')`: split on every newline, keeping empty pieces
(`"".split('\n') = ['']`). -/
def splitLines : List Char → List (List Char)
  | [] => [[]]
  | c :: cs =>
      if c = '\n' then [] :: splitLines cs
      else (c :: (splitLines cs).headD []) :: (splitLines cs).tail

/-- Join lines with a newline between consecutive lines
(inverse of `splitLines` on newline-free lines). -/
def joinNL : List (List Char) → List Char
  | [] => []
  | [l] => l
  | l :: l' :: ls => l ++ '\n' :: joinNL (l' :: ls)

/-- Python `str.lower()`, modelled on ASCII letters. -/
def toLowerL (s : List Char) : List Char := s.map Char.toLower

/-- `startsWithL p s` holds when `p` is an initial segment of `s`. -/
def startsWithL : List Char → List Char → Bool
  | [], _ => true
  | _ :: _, [] => false
  | p :: ps, c :: cs => p == c && startsWithL ps cs

/-- Python substring containment (`pat in s`). -/
def containsL (pat : List Char) : List Char → Bool
  | [] => startsWithL pat []
  | c :: cs => startsWithL pat (c :: cs) || containsL pat cs

/-- `endsWithL p s` holds when `p` is a final segment of `s`. -/
def endsWithL (pat s : List Char) : Bool :=
  startsWithL pat.reverse s.reverse

/-- `html.escape` on one character (`&`, `<`, `>`, `"`, `'` become entities). -/
def escapeChar (c : Char) : List Char :=
  if c == '&' then str "&amp;"
  else if c == '<' then str "&lt;"
  else if c == '>' then str "&gt;"
  else if c == Char.ofNat 34 then str "&quot;"
  else if c == Char.ofNat 39 then str "&#x27;"
  else [c]

/-- `html.escape` on a string (the sequential replaces of `html.escape`
amount to this character-wise map). -/
def escapeL (s : List Char) : List Char := (s.map escapeChar).flatten

/-- `safe_text` from `qpp5.py`: empty text maps to the empty string,
otherwise escape and turn newlines into explicit `<br/>` breaks. -/
def safe_text (s : List Char) : List Char :=
  if s = [] then []
  else ((escapeL s).map fun c => if c == '\n' then str "<br/>" else [c]).flatten

/-- The separator class of the step-label regex: one of `:`, `-`, `.`. -/
def isSepChar (c : Char) : Bool := c == ':' || c == '-' || c == '.'

/-- The part of the step-label regex after the literal `step`:
`\s*\d+\s*[:\-.]\s*` — optional whitespace, at least one digit, optional
whitespace, exactly one separator, optional whitespace.  Returns the rest
of the line on a match.  The character classes at every choice point are
disjoint, so this greedy left-to-right scan is exactly the regex match. -/
def stepLabelTail (rest : List Char) : Option (List Char) :=
  let afterWs := rest.dropWhile isPySpace
  let digits := afterWs.takeWhile Char.isDigit
  if digits = [] then none
  else
    match (afterWs.dropWhile Char.isDigit).dropWhile isPySpace with
    | sep :: rest2 => if isSepChar sep then some (rest2.dropWhile isPySpace) else none
    | [] => none

/-- `re.sub(r'^step\s*\d+\s*[:\-\.]\s*', '', line, flags=re.IGNORECASE)`:
strip one leading step label; the line is returned unchanged when the
anchored pattern does not match. -/
def stripStepLabel (s : List Char) : List Char :=
  match s with
  | c1 :: c2 :: c3 :: c4 :: rest =>
      if c1.toLower == 's' && c2.toLower == 't' && c3.toLower == 'e' && c4.toLower == 'p' then
        match stepLabelTail rest with
        | some r => r
        | none => s
      else s
  | _ => s

/-- The boilerplate phrase re-synthesised as step 1. -/
def phraseStart : List Char := str "start the program"

/-- The boilerplate phrase re-synthesised as the last step. -/
def phraseStop : List Char := str "stop the program"

/-- One iteration of the algorithm-processor loop of `generate_pdf`:
strip the line, skip it when blank, strip a leading step label and strip
again, skip lines mentioning the start/stop boilerplate (case-insensitively),
and append the cleaned text unless it is empty or already collected. -/
def processLine (acc : List (List Char)) (rawLine : List Char) : List (List Char) :=
  let line := pyStrip rawLine
  if line = [] then acc
  else
    let line_clean := pyStrip (stripStepLabel line)
    let lower_line := toLowerL line_clean
    if containsL phraseStart lower_line || containsL phraseStop lower_line then acc
    else if line_clean ≠ [] ∧ line_clean ∉ acc then acc ++ [line_clean]
    else acc

/-- `processed_lines` of the algorithm processor: the cleaned, filtered,
deduplicated middle step texts, in input order. -/
def processedLines (alg_raw : List Char) : List (List Char) :=
  (splitLines alg_raw).foldl processLine []

/-- The decimal digit character for `d < 10`. -/
def digitChar (d : Nat) : Char := Char.ofNat (48 + d)

/-- Fuel-driven decimal rendering (structural recursion so that the kernel
can evaluate it). -/
def natStrAux : Nat → Nat → List Char
  | 0, _ => []
  | fuel + 1, n => if n < 10 then [digitChar n] else natStrAux fuel (n / 10) ++ [digitChar (n % 10)]

/-- Python `str(n)` for a natural number (`n + 1` units of fuel always
suffice, since a number has at most `n + 1` decimal digits). -/
def natStr (n : Nat) : List Char := natStrAux (n + 1) n

/-- One rendered step line `Step {n}: {content}` of the normalizer output. -/
def stepLine (n : Nat) (content : List Char) : List Char :=
  str "Step " ++ natStr n ++ str ": " ++ content

/-- `alg_html` of `generate_pdf`: the synthesized start step, the escaped
and renumbered middle steps, and the synthesized stop step, joined with
`<br/>` breaks. -/
def alg_html (alg_raw : List Char) : List Char :=
  let pls := processedLines alg_raw
  (stepLine 1 (str "Start the program") ++ str "<br/>")
    ++ (pls.enum.map (fun p => stepLine (p.1 + 2) (escapeL p.2) ++ str "<br/>")).flatten
    ++ stepLine (pls.length + 2) (str "Stop the program")

/-- The middle step lines of the normalized output, without the
synthesized start/stop lines and without the `<br/>` separators. -/
def middleLines (alg_raw : List Char) : List (List Char) :=
  (processedLines alg_raw).enum.map (fun p => stepLine (p.1 + 2) (escapeL p.2))

/-- Already-normalized text stripped of the synthesized start/stop lines,
fed back to the normalizer as multi-line text. -/
def renormInput (alg_raw : List Char) : List Char := joinNL (middleLines alg_raw)

/-- `true` when no character of the text is rewritten by `html.escape`. -/
def noSpecialsB (s : List Char) : Bool :=
  s.all fun c =>
    !(c == '&') && !(c == '<') && !(c == '>') && !(c == Char.ofNat 34) && !(c == Char.ofNat 39)

/-- `re.sub(r'^\s*output\s*[:\-\.]*\s*', '', out_raw, flags=re.IGNORECASE)`:
strip a leading `output` label with optional whitespace and an optional run
of separators.  Everything after the literal `output` is star-quantified,
so the label matches with no separator at all. -/
def outLabelStrip (s : List Char) : List Char :=
  match s.dropWhile isPySpace with
  | c1 :: c2 :: c3 :: c4 :: c5 :: c6 :: rest =>
      if c1.toLower == 'o' && c2.toLower == 'u' && c3.toLower == 't' && c4.toLower == 'p'
          && c5.toLower == 'u' && c6.toLower == 't' then
        ((rest.dropWhile isPySpace).dropWhile isSepChar).dropWhile isPySpace
      else s
  | _ => s

/-- `out_clean` of `generate_pdf`: the output field is stripped
(`out_raw = data.get('output','').strip()`) and the leading label removed. -/
def outClean (s : List Char) : List Char := outLabelStrip (pyStrip s)

/-- One point (1/72 inch); `inch` of `reportlab.lib.units` is 72 points. -/
def inchQ : ℚ := 72

/-- `PushToBottomSpacer.wrap`: measure the height every target element
reports at the available width, add the 0.05 inch buffer, and either
overflow the page (`availHeight + 10`) or consume exactly the slack
(`availHeight - total_needed`).  Elements are modelled by their `wrap`
method: a function from available width and height to (width, height). -/
def PushToBottomSpacer.wrap (elements_to_push : List (ℚ → ℚ → ℚ × ℚ))
    (availWidth availHeight : ℚ) : ℚ × ℚ :=
  let h := (elements_to_push.map fun el => (el availWidth availHeight).2).sum
  let total_needed := h + (1 / 20) * inchQ
  if availHeight < total_needed then (availWidth, availHeight + 10)
  else (availWidth, availHeight - total_needed)

/-- The named paragraph styles of the style registry in `generate_pdf`. -/
inductive StyleName where
  | tableLeft
  | tableCenter
  | heading
  | body
  | turboC
deriving DecidableEq

/-- A renderable unit of the story.  `KeepTogether` and
`PushToBottomSpacer` always wrap lists of paragraphs in the source, so
their payload is the list of (text, style) pairs. -/
inductive Block where
  | headerTable (expNoCell titleCell dateCell : List Char)
  | spacer (w h : ℚ)
  | para (content : List Char) (style : StyleName)
  | keepTogether (items : List (List Char × StyleName))
  | pushToBottom (items : List (List Char × StyleName))
deriving DecidableEq

/-- The record handed to `generate_pdf`: ten free-text fields. -/
structure Record where
  name : List Char
  regNo : List Char
  expNo : List Char
  date : List Char
  title : List Char
  aim : List Char
  algorithm : List Char
  program : List Char
  output : List Char
  result : List Char

/-- `date_str`: the escaped, stripped date, or a ten-wide blank
placeholder (`"&nbsp;" * 10`) when empty. -/
def date_str (r : Record) : List Char :=
  let d := pyStrip (safe_text r.date)
  if d = [] then (List.replicate 10 (str "&nbsp;")).flatten else d

/-- The header table block (two rows, title cell spanning both). -/
def headerBlock (r : Record) : Block :=
  Block.headerTable (str "Exp.no : " ++ safe_text r.expNo) (safe_text r.title)
    (str "Date &nbsp;&nbsp;&nbsp;: " ++ date_str r)

/-- The five-space indent used by the aim and result bodies. -/
def indent5 : List Char := str "&nbsp;&nbsp;&nbsp;&nbsp;&nbsp;"

/-- The aim section: heading and indented body when `aim` is non-empty. -/
def aimSection (r : Record) : List Block :=
  if r.aim = [] then []
  else
    [Block.para (str "<b>AIM :</b>") StyleName.heading,
     Block.para (indent5 ++ safe_text r.aim) StyleName.body]

/-- The algorithm section: emitted whenever `alg_html` is non-empty
(mirrors `if alg_html:`). -/
def algSection (r : Record) : List Block :=
  if alg_html r.algorithm = [] then []
  else
    [Block.para (str "<b>ALGORITHM :</b>") StyleName.heading,
     Block.para (alg_html r.algorithm) StyleName.body]

/-- `prog_lines = len(data.get('program','').split('\n'))`. -/
def progLineCount (r : Record) : Nat := (splitLines r.program).length

/-- The program heading/body pair. -/
def programItems (r : Record) : List (List Char × StyleName) :=
  [(str "<b>PROGRAM :</b>", StyleName.heading), (safe_text r.program, StyleName.body)]

/-- The program section: atomic `KeepTogether` below 15 lines, two bare
blocks otherwise. -/
def programSection (r : Record) : List Block :=
  if r.program = [] then []
  else if progLineCount r < 15 then [Block.keepTogether (programItems r)]
  else
    [Block.para (str "<b>PROGRAM :</b>") StyleName.heading,
     Block.para (safe_text r.program) StyleName.body]

/-- The output section: heading plus terminal-styled body holding the
label-stripped, escaped output text. -/
def outputSection (r : Record) : List Block :=
  if r.output = [] then []
  else
    [Block.para (str "<b>OUTPUT :</b>") StyleName.heading,
     Block.para (safe_text (outClean r.output)) StyleName.turboC]

/-- The result heading/body pair handed to the bottom-pin spacer. -/
def resultItems (r : Record) : List (List Char × StyleName) :=
  [(str "<b>RESULT :</b>", StyleName.heading),
   (indent5 ++ safe_text r.result, StyleName.body)]

/-- The result section: the bottom-pin spacer followed by the atomic
result pair. -/
def resultSection (r : Record) : List Block :=
  if r.result = [] then []
  else [Block.pushToBottom (resultItems r), Block.keepTogether (resultItems r)]

/-- The full story assembled by `generate_pdf`, in document order. -/
def buildStory (r : Record) : List Block :=
  [headerBlock r, Block.spacer 1 (72 / 5)]
    ++ aimSection r ++ algSection r ++ programSection r
    ++ outputSection r ++ resultSection r

/-- A4 width in points (`210 mm`), as an exact rational. -/
def A4w : ℚ := 75600 / 127

/-- A4 height in points (`297 mm`), as an exact rational. -/
def A4h : ℚ := 106920 / 127

/-- `margin_x = 0.5 * inch`. -/
def margin_x : ℚ := 36

/-- A drawing command issued by the per-page decorator. -/
inductive DrawCmd where
  | textLeft (x y : ℚ) (s : List Char)
  | textRight (x y : ℚ) (s : List Char)
  | rect (x y w h : ℚ)
  | image (x y w h alpha : ℚ)
deriving DecidableEq

/-- `draw_decorations` of `generate_pdf`: name/registration header, the
page border, the footer label, and — only when the watermark file exists —
the centered translucent watermark.  The same callback is registered for
the first and all later pages, so it does not depend on the page index. -/
def draw_decorations (r : Record) (logoExists : Bool) : List DrawCmd :=
  [DrawCmd.textLeft margin_x (A4h - 36) (str "Name : " ++ r.name),
   DrawCmd.textRight (A4w - margin_x) (A4h - 36) (str "Reg no : " ++ r.regNo),
   DrawCmd.rect margin_x ((7 / 10) * inchQ)
     (A4w - 2 * margin_x) (A4h - (13 / 20) * inchQ - (7 / 10) * inchQ),
   DrawCmd.textRight (A4w - margin_x) ((9 / 20) * inchQ) (str "22UCS202 - C Programming")]
    ++ (if logoExists then
          [DrawCmd.image ((A4w - 5 * inchQ) / 2) ((A4h - 5 * inchQ) / 2)
            (5 * inchQ) (5 * inchQ) (1 / 10)]
        else [])

/-- The document produced for a record: the story (the block sequence fed
to the layout engine) and the per-page decoration commands. -/
def generateDocument (r : Record) (logoExists : Bool) : List Block × List DrawCmd :=
  (buildStory r, draw_decorations r logoExists)

/-- `goodLine c` collects the invariants of every collected middle step:
non-empty, already stripped, newline-free, and free of the start/stop
boilerplate phrases. -/
def goodLine (c : List Char) : Prop :=
  c ≠ [] ∧ pyStrip c = c ∧ '\n' ∉ c ∧
    containsL phraseStart (toLowerL c) = false ∧ containsL phraseStop (toLowerL c) = false

/-! ### Elementary list lemmas -/

theorem head?_append_left {α : Type} (l1 l2 : List α) (h : l1 ≠ []) :
    (l1 ++ l2).head? = l1.head? := by
  cases l1 with
  | nil => exact absurd rfl h
  | cons a t => rfl

theorem dropWhile_head_false (p : Char → Bool) (l : List Char) :
    ∀ h, (l.dropWhile p).head? = some h → p h = false := by
  induction l with
  | nil => intro h hh; simp at hh
  | cons c cs ih =>
    intro h hh
    rw [List.dropWhile_cons] at hh
    by_cases hc : p c
    · rw [if_pos hc] at hh; exact ih h hh
    · rw [if_neg hc] at hh
      simp only [List.head?_cons, Option.some.injEq] at hh
      subst hh
      exact Bool.not_eq_true _ ▸ (by simpa using hc)

theorem dropWhile_eq_self_of (p : Char → Bool) (l : List Char)
    (h : ∀ c, l.head? = some c → p c = false) : l.dropWhile p = l := by
  cases l with
  | nil => rfl
  | cons c cs =>
    rw [List.dropWhile_cons, if_neg]
    simp [h c rfl]

theorem takeWhile_append_all (p : Char → Bool) (l1 l2 : List Char)
    (h : ∀ c ∈ l1, p c = true) : (l1 ++ l2).takeWhile p = l1 ++ l2.takeWhile p := by
  induction l1 with
  | nil => simp
  | cons c cs ih =>
    rw [List.cons_append, List.takeWhile_cons, if_pos (h c (by simp)), List.cons_append,
      ih (fun x hx => h x (by simp [hx]))]

theorem dropWhile_append_all (p : Char → Bool) (l1 l2 : List Char)
    (h : ∀ c ∈ l1, p c = true) : (l1 ++ l2).dropWhile p = l2.dropWhile p := by
  induction l1 with
  | nil => simp
  | cons c cs ih =>
    rw [List.cons_append, List.dropWhile_cons, if_pos (h c (by simp))]
    exact ih (fun x hx => h x (by simp [hx]))

theorem mem_of_mem_dropWhile {x : Char} {p : Char → Bool} {l : List Char}
    (h : x ∈ l.dropWhile p) : x ∈ l := by
  induction l with
  | nil => simp at h
  | cons c cs ih =>
    rw [List.dropWhile_cons] at h
    by_cases hc : p c
    · rw [if_pos hc] at h; exact List.mem_cons_of_mem _ (ih h)
    · rw [if_neg hc] at h; exact h

/-! ### `pyStrip` lemmas -/

theorem pyStrip_decomp (s : List Char) :
    s.dropWhile isPySpace
      = pyStrip s ++ ((s.dropWhile isPySpace).reverse.takeWhile isPySpace).reverse := by
  conv_lhs => rw [← List.reverse_reverse (s.dropWhile isPySpace),
    ← List.takeWhile_append_dropWhile (p := isPySpace)
      (l := (s.dropWhile isPySpace).reverse)]
  rw [List.reverse_append]
  rfl

theorem pyStrip_head (s : List Char) :
    ∀ h, (pyStrip s).head? = some h → isPySpace h = false := by
  intro h hh
  have hne : pyStrip s ≠ [] := by
    intro e; rw [e] at hh; simp at hh
  apply dropWhile_head_false isPySpace s h
  rw [pyStrip_decomp s, head?_append_left _ _ hne]
  exact hh

theorem pyStrip_revhead (s : List Char) :
    ∀ h, (pyStrip s).reverse.head? = some h → isPySpace h = false := by
  intro h hh
  rw [pyStrip, List.reverse_reverse] at hh
  exact dropWhile_head_false isPySpace _ h hh

theorem pyStrip_eq_self (s : List Char)
    (h1 : ∀ c, s.head? = some c → isPySpace c = false)
    (h2 : ∀ c, s.reverse.head? = some c → isPySpace c = false) :
    pyStrip s = s := by
  rw [pyStrip, dropWhile_eq_self_of _ _ h1, dropWhile_eq_self_of _ _ h2, List.reverse_reverse]

theorem pyStrip_idem (s : List Char) : pyStrip (pyStrip s) = pyStrip s :=
  pyStrip_eq_self _ (pyStrip_head s) (pyStrip_revhead s)

theorem mem_of_mem_pyStrip {x : Char} {s : List Char} (h : x ∈ pyStrip s) : x ∈ s := by
  rw [pyStrip, List.mem_reverse] at h
  have h1 := mem_of_mem_dropWhile h
  rw [List.mem_reverse] at h1
  exact mem_of_mem_dropWhile h1

/-! ### `splitLines` and `joinNL` lemmas -/

theorem splitLines_ne_nil (s : List Char) : splitLines s ≠ [] := by
  cases s with
  | nil => simp [splitLines]
  | cons c cs =>
    rw [splitLines]
    split <;> simp

theorem splitLines_no_newline (s : List Char) : ∀ l ∈ splitLines s, '\n' ∉ l := by
  induction s with
  | nil =>
    intro l hl
    simp [splitLines] at hl
    simp [hl]
  | cons c cs ih =>
    intro l hl
    rw [splitLines] at hl
    by_cases hc : c = '\n'
    · rw [if_pos hc] at hl
      rcases List.mem_cons.mp hl with h | h
      · simp [h]
      · exact ih l h
    · rw [if_neg hc] at hl
      rcases List.mem_cons.mp hl with h | h
      · subst h
        intro hmem
        rcases List.mem_cons.mp hmem with h' | h'
        · exact hc h'.symm
        · obtain ⟨a, as, ha⟩ := List.exists_cons_of_ne_nil (splitLines_ne_nil cs)
          rw [ha] at h'
          exact ih a (by rw [ha]; simp) (by simpa using h')
      · exact ih l (List.mem_of_mem_tail h)

theorem splitLines_single (s : List Char) (h : '\n' ∉ s) : splitLines s = [s] := by
  induction s with
  | nil => rfl
  | cons c cs ih =>
    have hc : c ≠ '\n' := fun e => h (by simp [e])
    have hcs : '\n' ∉ cs := fun e => h (List.mem_cons_of_mem _ e)
    rw [splitLines, if_neg hc, ih hcs]
    rfl

theorem splitLines_append_newline (l t : List Char) (h : '\n' ∉ l) :
    splitLines (l ++ '\n' :: t) = l :: splitLines t := by
  induction l with
  | nil => simp [splitLines]
  | cons c cs ih =>
    have hc : c ≠ '\n' := fun e => h (by simp [e])
    have hcs : '\n' ∉ cs := fun e => h (List.mem_cons_of_mem _ e)
    rw [List.cons_append, splitLines, if_neg hc, ih hcs]
    rfl

theorem splitLines_joinNL (ls : List (List Char)) (hne : ls ≠ [])
    (h : ∀ l ∈ ls, '\n' ∉ l) : splitLines (joinNL ls) = ls := by
  induction ls with
  | nil => exact absurd rfl hne
  | cons l ls ih =>
    cases ls with
    | nil => simp [joinNL, splitLines_single l (h l (by simp))]
    | cons l' ls' =>
      rw [joinNL, splitLines_append_newline _ _ (h l (by simp)),
        ih (by simp) (fun x hx => h x (by simp [hx]))]

/-! ### Character-class lemmas -/

theorem isPySpace_cases (c : Char) (h : isPySpace c = true) :
    c = ' ' ∨ c = '\t' ∨ c = '\n' ∨ c = '\r' ∨ c = Char.ofNat 11 ∨ c = Char.ofNat 12 := by
  simpa [isPySpace, or_assoc] using h

theorem isDigit_not_pySpace (c : Char) (h : c.isDigit = true) : isPySpace c = false := by
  cases hc : isPySpace c
  · rfl
  · rcases isPySpace_cases c hc with h1 | h1 | h1 | h1 | h1 | h1 <;> subst h1 <;>
      exact absurd h (by decide)

theorem isSepChar_cases (c : Char) (h : isSepChar c = true) : c = ':' ∨ c = '-' ∨ c = '.' := by
  simpa [isSepChar, or_assoc] using h

theorem isSepChar_not_digit (c : Char) (h : isSepChar c = true) : c.isDigit = false := by
  rcases isSepChar_cases c h with h1 | h1 | h1 <;> subst h1 <;> decide

theorem isSepChar_not_pySpace (c : Char) (h : isSepChar c = true) : isPySpace c = false := by
  rcases isSepChar_cases c h with h1 | h1 | h1 <;> subst h1 <;> decide

/-! ### `natStr` lemmas -/

theorem digitChar_isDigit : ∀ d, d < 10 → (digitChar d).isDigit = true := by decide

theorem natStr_ne_nil (n : Nat) : natStr n ≠ [] := by
  rw [natStr, natStrAux]
  split <;> simp

theorem natStrAux_digits (fuel : Nat) : ∀ n, ∀ c ∈ natStrAux fuel n, c.isDigit = true := by
  induction fuel with
  | zero => intro n c hc; simp [natStrAux] at hc
  | succ f ih =>
    intro n c hc
    rw [natStrAux] at hc
    split at hc
    · rw [List.mem_singleton] at hc
      subst hc
      exact digitChar_isDigit n (by omega)
    · rcases List.mem_append.mp hc with h | h
      · exact ih _ c h
      · rw [List.mem_singleton] at h
        subst h
        exact digitChar_isDigit _ (Nat.mod_lt _ (by norm_num))

theorem natStr_digits (n : Nat) : ∀ c ∈ natStr n, c.isDigit = true :=
  natStrAux_digits (n + 1) n

/-! ### Step-label stripping lemmas -/

theorem natStr_head_digit (n : Nat) :
    ∀ c, (natStr n).head? = some c → c.isDigit = true := by
  intro c hc
  have hm : c ∈ natStr n := by
    cases hh : natStr n with
    | nil => exact absurd hh (natStr_ne_nil n)
    | cons a t =>
      rw [hh] at hc
      simp only [List.head?_cons, Option.some.injEq] at hc
      rw [← hc]
      simp
  exact natStr_digits n c hm

theorem dropWhile_space_natStr (n : Nat) (t : List Char) :
    (natStr n ++ t).dropWhile isPySpace = natStr n ++ t := by
  apply dropWhile_eq_self_of
  intro c hc
  rw [head?_append_left _ _ (natStr_ne_nil n)] at hc
  exact isDigit_not_pySpace c (natStr_head_digit n c hc)

theorem stepLabelTail_sep (n : Nat) (sep : Char) (rest : List Char)
    (hsep : isSepChar sep = true) :
    stepLabelTail (' ' :: (natStr n ++ sep :: rest)) = some (rest.dropWhile isPySpace) := by
  have h1 : (' ' :: (natStr n ++ sep :: rest)).dropWhile isPySpace
      = natStr n ++ sep :: rest := by
    rw [List.dropWhile_cons, if_pos (by decide)]
    exact dropWhile_space_natStr n _
  have h2 : (natStr n ++ sep :: rest).takeWhile Char.isDigit = natStr n := by
    rw [takeWhile_append_all _ _ _ (natStr_digits n), List.takeWhile_cons,
      if_neg (by simp [isSepChar_not_digit sep hsep]), List.append_nil]
  have h3 : (natStr n ++ sep :: rest).dropWhile Char.isDigit = sep :: rest := by
    rw [dropWhile_append_all _ _ _ (natStr_digits n), List.dropWhile_cons,
      if_neg (by simp [isSepChar_not_digit sep hsep])]
  simp only [stepLabelTail, h1, h2, h3]
  rw [if_neg (natStr_ne_nil n), List.dropWhile_cons,
    if_neg (by simp [isSepChar_not_pySpace sep hsep])]
  simp [hsep]

theorem stepLabelTail_nosep (n : Nat) (rest2 : List Char)
    (h : ∀ c, rest2.head? = some c → isPySpace c = false ∧ isSepChar c = false) :
    stepLabelTail (' ' :: (natStr n ++ ' ' :: rest2)) = none := by
  have h1 : (' ' :: (natStr n ++ ' ' :: rest2)).dropWhile isPySpace
      = natStr n ++ ' ' :: rest2 := by
    rw [List.dropWhile_cons, if_pos (by decide)]
    exact dropWhile_space_natStr n _
  have h2 : (natStr n ++ ' ' :: rest2).takeWhile Char.isDigit = natStr n := by
    rw [takeWhile_append_all _ _ _ (natStr_digits n), List.takeWhile_cons,
      if_neg (by decide), List.append_nil]
  have h3 : (natStr n ++ ' ' :: rest2).dropWhile Char.isDigit = ' ' :: rest2 := by
    rw [dropWhile_append_all _ _ _ (natStr_digits n), List.dropWhile_cons,
      if_neg (by decide)]
  have h4 : (' ' :: rest2).dropWhile isPySpace = rest2 := by
    rw [List.dropWhile_cons, if_pos (by decide)]
    exact dropWhile_eq_self_of _ _ (fun c hc => (h c hc).1)
  simp only [stepLabelTail, h1, h2, h3, h4]
  rw [if_neg (natStr_ne_nil n)]
  cases hr : rest2 with
  | nil => rfl
  | cons c t =>
    have := (h c (by rw [hr]; rfl)).2
    simp [this]

theorem stripStepLabel_stepPrefix (tail : List Char) :
    stripStepLabel ('S' :: 't' :: 'e' :: 'p' :: tail)
      = match stepLabelTail tail with
        | some r => r
        | none => 'S' :: 't' :: 'e' :: 'p' :: tail := rfl

theorem stripStepLabel_sep (n : Nat) (sep : Char) (rest : List Char)
    (hsep : isSepChar sep = true) :
    stripStepLabel (str "Step " ++ natStr n ++ sep :: rest) = rest.dropWhile isPySpace := by
  show stripStepLabel ('S' :: 't' :: 'e' :: 'p' :: (' ' :: (natStr n ++ sep :: rest))) = _
  rw [stripStepLabel_stepPrefix, stepLabelTail_sep n sep rest hsep]

theorem stripStepLabel_nosep (n : Nat) (rest2 : List Char)
    (h : ∀ c, rest2.head? = some c → isPySpace c = false ∧ isSepChar c = false) :
    stripStepLabel (str "Step " ++ natStr n ++ ' ' :: rest2)
      = str "Step " ++ natStr n ++ ' ' :: rest2 := by
  show stripStepLabel ('S' :: 't' :: 'e' :: 'p' :: (' ' :: (natStr n ++ ' ' :: rest2))) = _
  rw [stripStepLabel_stepPrefix, stepLabelTail_nosep n rest2 h]
  rfl

theorem stripStepLabel_stepLine (n : Nat) (c : List Char)
    (hc : ∀ h, c.head? = some h → isPySpace h = false) :
    stripStepLabel (stepLine n c) = c := by
  have h2 : stepLine n c = str "Step " ++ natStr n ++ ':' :: (' ' :: c) := by
    unfold stepLine
    rw [List.append_assoc]
    exact congrArg (fun t => str "Step " ++ natStr n ++ t)
      (rfl : str ": " ++ c = ':' :: (' ' :: c))
  rw [h2, stripStepLabel_sep n ':' (' ' :: c) (by decide), List.dropWhile_cons,
    if_pos (by decide)]
  exact dropWhile_eq_self_of _ _ hc

/-! ### Escape lemmas -/

theorem escapeChar_eq_self (c : Char) (h1 : c ≠ '&') (h2 : c ≠ '<') (h3 : c ≠ '>')
    (h4 : c ≠ Char.ofNat 34) (h5 : c ≠ Char.ofNat 39) : escapeChar c = [c] := by
  rw [escapeChar, if_neg (by simp [h1]), if_neg (by simp [h2]), if_neg (by simp [h3]),
    if_neg (by simp [h4]), if_neg (by simp [h5])]

theorem escapeL_eq_self (s : List Char) (h : noSpecialsB s = true) : escapeL s = s := by
  induction s with
  | nil => rfl
  | cons c cs ih =>
    rw [noSpecialsB, List.all_cons, Bool.and_eq_true] at h
    obtain ⟨hc, hcs⟩ := h
    simp only [Bool.and_eq_true, Bool.not_eq_true', beq_eq_false_iff_ne] at hc
    rw [escapeL, List.map_cons, List.flatten_cons]
    rw [escapeChar_eq_self c hc.1.1.1.1 hc.1.1.1.2 hc.1.1.2 hc.1.2 hc.2]
    have h3 := ih hcs
    rw [escapeL] at h3
    rw [h3]
    rfl

/-! ### Normalizer-loop invariants -/

theorem mem_of_mem_stepLabelTail {rest r : List Char} (he : stepLabelTail rest = some r)
    {x : Char} (h : x ∈ r) : x ∈ rest := by
  rw [stepLabelTail] at he
  split at he
  · exact absurd he (by simp)
  · split at he
    · rename_i sep rest2 heq
      split at he
      · simp only [Option.some.injEq] at he
        subst he
        have hx1 : x ∈ rest2 := mem_of_mem_dropWhile h
        have hx2 : x ∈ sep :: rest2 := List.mem_cons_of_mem _ hx1
        rw [← heq] at hx2
        exact mem_of_mem_dropWhile (mem_of_mem_dropWhile (mem_of_mem_dropWhile hx2))
      · exact absurd he (by simp)
    · exact absurd he (by simp)

theorem mem_of_mem_stripStepLabel {x : Char} {s : List Char}
    (h : x ∈ stripStepLabel s) : x ∈ s := by
  rcases s with _ | ⟨c1, _ | ⟨c2, _ | ⟨c3, _ | ⟨c4, rest⟩⟩⟩⟩
  · exact h
  · exact h
  · exact h
  · exact h
  · rw [stripStepLabel] at h
    split at h
    · cases he : stepLabelTail rest with
      | none => rw [he] at h; exact h
      | some r =>
        rw [he] at h
        have := mem_of_mem_stepLabelTail he h
        simp [this]
    · exact h

theorem processLine_cases (acc : List (List Char)) (l : List Char) :
    processLine acc l = acc ∨
    (processLine acc l = acc ++ [pyStrip (stripStepLabel (pyStrip l))]
      ∧ pyStrip (stripStepLabel (pyStrip l)) ≠ []
      ∧ pyStrip (stripStepLabel (pyStrip l)) ∉ acc
      ∧ containsL phraseStart (toLowerL (pyStrip (stripStepLabel (pyStrip l)))) = false
      ∧ containsL phraseStop (toLowerL (pyStrip (stripStepLabel (pyStrip l)))) = false) := by
  simp only [processLine]
  split
  · left; rfl
  · split
    · left; rfl
    · rename_i hblank hphrase
      split
      · rename_i hcond
        right
        simp only [Bool.or_eq_true, not_or, Bool.not_eq_true] at hphrase
        exact ⟨rfl, hcond.1, hcond.2, hphrase.1, hphrase.2⟩
      · left; rfl

theorem foldl_processLine_good (lines : List (List Char)) :
    ∀ acc, (∀ c ∈ acc, goodLine c) → (∀ l ∈ lines, '\n' ∉ l) →
      ∀ c ∈ lines.foldl processLine acc, goodLine c := by
  induction lines with
  | nil => intro acc hacc _ c hc; exact hacc c hc
  | cons l ls ih =>
    intro acc hacc hnl c hc
    rw [List.foldl_cons] at hc
    refine ih (processLine acc l) ?_ (fun x hx => hnl x (by simp [hx])) c hc
    rcases processLine_cases acc l with h | ⟨heq, hne, _, hp1, hp2⟩
    · rw [h]; exact hacc
    · rw [heq]
      intro x hx
      rcases List.mem_append.mp hx with hx | hx
      · exact hacc x hx
      · rw [List.mem_singleton] at hx
        subst hx
        refine ⟨hne, pyStrip_idem _, ?_, hp1, hp2⟩
        intro hmem
        exact hnl l (by simp)
          (mem_of_mem_pyStrip (mem_of_mem_stripStepLabel (mem_of_mem_pyStrip hmem)))

theorem foldl_processLine_nodup (lines : List (List Char)) :
    ∀ acc, acc.Nodup → (lines.foldl processLine acc).Nodup := by
  induction lines with
  | nil => intro acc h; exact h
  | cons l ls ih =>
    intro acc h
    rw [List.foldl_cons]
    apply ih
    rcases processLine_cases acc l with heq | ⟨heq, _, hnot, _, _⟩
    · rw [heq]; exact h
    · rw [heq]
      simp [List.nodup_append, h, hnot]

theorem processedLines_good (raw : List Char) : ∀ c ∈ processedLines raw, goodLine c :=
  foldl_processLine_good _ [] (by simp) (splitLines_no_newline raw)

theorem processedLines_nodup (raw : List Char) : (processedLines raw).Nodup :=
  foldl_processLine_nodup _ [] List.nodup_nil

/-! ### Renormalization of the normalizer's own output -/

theorem processLine_stepLine (acc : List (List Char)) (k : Nat) (c : List Char)
    (hg : goodLine c) (hmem : c ∉ acc) :
    processLine acc (stepLine k c) = acc ++ [c] := by
  obtain ⟨hne, hstrip, hnl, hp1, hp2⟩ := hg
  have hhead : ∀ h, c.head? = some h → isPySpace h = false := by
    intro h hh
    exact pyStrip_head c h (by rw [hstrip]; exact hh)
  have hrev : ∀ h, c.reverse.head? = some h → isPySpace h = false := by
    intro h hh
    exact pyStrip_revhead c h (by rw [hstrip]; exact hh)
  have hslhead : (stepLine k c).head? = some 'S' := rfl
  have hslrev : (stepLine k c).reverse
      = c.reverse ++ (str "Step " ++ natStr k ++ str ": ").reverse := by
    unfold stepLine
    exact List.reverse_append _ _
  have hsl : pyStrip (stepLine k c) = stepLine k c := by
    apply pyStrip_eq_self
    · intro x hx
      rw [hslhead] at hx
      simp only [Option.some.injEq] at hx
      subst hx
      decide
    · intro x hx
      rw [hslrev, head?_append_left _ _ (by simp [hne])] at hx
      exact hrev x hx
  have hne2 : stepLine k c ≠ [] := by
    intro e
    rw [e] at hslhead
    exact Option.noConfusion hslhead
  simp only [processLine]
  rw [hsl, if_neg hne2, stripStepLabel_stepLine k c hhead, hstrip,
    if_neg (by simp [hp1, hp2]), if_pos ⟨hne, hmem⟩]

theorem snd_mem_of_mem_enumFrom {α : Type} :
    ∀ (l : List α) (k : Nat) (p : Nat × α), p ∈ l.enumFrom k → p.2 ∈ l := by
  intro l
  induction l with
  | nil => intro k p hp; simp [List.enumFrom] at hp
  | cons a t ih =>
    intro k p hp
    rw [show (a :: t).enumFrom k = (k, a) :: t.enumFrom (k + 1) from rfl] at hp
    rcases List.mem_cons.mp hp with h | h
    · subst h; simp
    · exact List.mem_cons_of_mem _ (ih (k + 1) p h)

theorem newline_not_mem_stepLine (m : Nat) (c : List Char) (hc : '\n' ∉ c) :
    '\n' ∉ stepLine m c := by
  intro h
  unfold stepLine at h
  rcases List.mem_append.mp h with h1 | h1
  · rcases List.mem_append.mp h1 with h2 | h2
    · rcases List.mem_append.mp h2 with h3 | h3
      · exact absurd h3 (by decide)
      · exact absurd (natStr_digits m '\n' h3) (by decide)
    · exact absurd h2 (by decide)
  · exact hc h1

theorem foldl_middle (cs : List (List Char)) :
    ∀ (k : Nat) (acc : List (List Char)),
      (∀ c ∈ cs, goodLine c) → (∀ c ∈ cs, noSpecialsB c = true) →
      (acc ++ cs).Nodup →
      ((cs.enumFrom k).map (fun p => stepLine (p.1 + 2) (escapeL p.2))).foldl processLine acc
        = acc ++ cs := by
  induction cs with
  | nil => intro k acc _ _ _; simp [List.enumFrom]
  | cons c cs ih =>
    intro k acc hg hs hnd
    have hcg := hg c (by simp)
    have hesc : escapeL c = c := escapeL_eq_self c (hs c (by simp))
    have hnotmem : c ∉ acc := by
      intro hmem
      rcases List.nodup_append.mp hnd with ⟨-, -, hdisj⟩
      exact hdisj hmem (by simp)
    rw [show (c :: cs).enumFrom k = (k, c) :: cs.enumFrom (k + 1) from rfl]
    simp only [List.map_cons, List.foldl_cons]
    rw [hesc, processLine_stepLine acc (k + 2) c ⟨hcg.1, hcg.2.1, hcg.2.2.1,
      hcg.2.2.2.1, hcg.2.2.2.2⟩ hnotmem]
    have hassoc : (acc ++ [c]) ++ cs = acc ++ c :: cs := by simp
    rw [ih (k + 1) (acc ++ [c]) (fun x hx => hg x (by simp [hx]))
      (fun x hx => hs x (by simp [hx])) (by rw [hassoc]; exact hnd)]
    exact hassoc

/-! ### Output-shape lemmas -/

theorem startsWithL_append_self (p t : List Char) : startsWithL p (p ++ t) = true := by
  induction p with
  | nil => rfl
  | cons c cs ih => simp [startsWithL, ih]

theorem endsWithL_append_self (p f : List Char) : endsWithL p (f ++ p) = true := by
  rw [endsWithL, List.reverse_append]
  exact startsWithL_append_self _ _

theorem alg_html_ne_nil (raw : List Char) : alg_html raw ≠ [] := by
  simp only [alg_html]
  intro h
  rw [List.append_eq_nil, List.append_eq_nil] at h
  exact absurd h.1.1 (by decide)

theorem mem_buildStory_iff (r : Record) (b : Block) :
    b ∈ buildStory r ↔
      b = headerBlock r ∨ b = Block.spacer 1 (72 / 5) ∨ b ∈ aimSection r ∨ b ∈ algSection r
      ∨ b ∈ programSection r ∨ b ∈ outputSection r ∨ b ∈ resultSection r := by
  simp [buildStory, List.mem_append, or_assoc]

/-! ### Claim theorems -/

/-- Claim C1: `PushToBottomSpacer.wrap` measures the total height `H` the
target blocks need at the given width, adds the 0.05 inch margin, and
reports a height strictly greater than the available height `A` when
`A < H + margin`, and exactly `A - (H + margin)` otherwise. -/
theorem C1_push_to_bottom (els : List (ℚ → ℚ → ℚ × ℚ)) (aw ah : ℚ) :
    (ah < (els.map fun el => (el aw ah).2).sum + (1 / 20) * inchQ →
      ah < (PushToBottomSpacer.wrap els aw ah).2)
    ∧ ((els.map fun el => (el aw ah).2).sum + (1 / 20) * inchQ ≤ ah →
      (PushToBottomSpacer.wrap els aw ah).2
        = ah - ((els.map fun el => (el aw ah).2).sum + (1 / 20) * inchQ)) := by
  constructor
  · intro h
    simp only [PushToBottomSpacer.wrap]
    rw [if_pos h]
    show ah < ah + 10
    linarith
  · intro h
    simp only [PushToBottomSpacer.wrap]
    rw [if_neg (not_lt.mpr h)]

/-- Witness for C1 at concrete inputs: one element of height 2, so the
required total is `2 + 3.6`; with `A = 1` the spacer overflows, with
`A = 50` it consumes exactly the slack. -/
theorem C1_witness :
    ((1 : ℚ) < (PushToBottomSpacer.wrap [fun _ _ => ((0 : ℚ), (2 : ℚ))] 100 1).2)
    ∧ (PushToBottomSpacer.wrap [fun _ _ => ((0 : ℚ), (2 : ℚ))] 100 50).2
        = 50 - (([fun _ _ => ((0 : ℚ), (2 : ℚ))].map fun el => (el (100 : ℚ) (50 : ℚ)).2).sum
            + (1 / 20) * inchQ) := by
  constructor
  · exact (C1_push_to_bottom _ 100 1).1 (by norm_num [inchQ])
  · exact (C1_push_to_bottom _ 100 50).2 (by norm_num [inchQ])

/-- Claim C2: the normalizer output starts with `Step 1: Start the program`,
ends with `Step N: Stop the program` for some `N ≥ 2`, numbers the middle
steps contiguously from 2, collects no duplicate cleaned line, and no
collected line contains the start/stop boilerplate case-insensitively. -/
theorem C2_normalizer_contract (raw : List Char) :
    startsWithL (str "Step 1: Start the program") (alg_html raw) = true
    ∧ (∃ N, 2 ≤ N ∧ endsWithL (str "Step " ++ natStr N ++ str ": Stop the program")
          (alg_html raw) = true)
    ∧ (processedLines raw).enum.map (fun p => p.1 + 2)
        = List.range' 2 (processedLines raw).length
    ∧ (processedLines raw).Nodup
    ∧ (∀ c ∈ processedLines raw,
        containsL phraseStart (toLowerL c) = false
        ∧ containsL phraseStop (toLowerL c) = false) := by
  refine ⟨?_, ?_, ?_, processedLines_nodup raw, ?_⟩
  · simp only [alg_html]
    rw [show stepLine 1 (str "Start the program") = str "Step 1: Start the program" from rfl]
    rw [List.append_assoc, List.append_assoc]
    exact startsWithL_append_self _ _
  · refine ⟨(processedLines raw).length + 2, by omega, ?_⟩
    have hstop : stepLine ((processedLines raw).length + 2) (str "Stop the program")
        = str "Step " ++ natStr ((processedLines raw).length + 2)
            ++ str ": Stop the program" := by
      unfold stepLine
      rw [List.append_assoc]
      exact congrArg (fun t => str "Step " ++ natStr ((processedLines raw).length + 2) ++ t)
        (rfl : str ": " ++ str "Stop the program" = str ": Stop the program")
    rw [← hstop]
    simp only [alg_html]
    exact endsWithL_append_self _ _
  · have h1 : (processedLines raw).enum.map (fun p => p.1 + 2)
        = ((processedLines raw).enum.map Prod.fst).map (fun i => i + 2) := by
      rw [List.map_map]
      rfl
    rw [h1, List.enum_map_fst, List.range'_eq_map_range]
    exact List.map_congr_left (fun a _ => Nat.add_comm a 2)
  · intro c hc
    exact ⟨(processedLines_good raw c hc).2.2.2.1, (processedLines_good raw c hc).2.2.2.2⟩

/-- Witness for C2 at a concrete input with one middle step. -/
theorem C2_witness :
    startsWithL (str "Step 1: Start the program") (alg_html (str "Read a and b")) = true
    ∧ (∃ N, 2 ≤ N ∧ endsWithL (str "Step " ++ natStr N ++ str ": Stop the program")
          (alg_html (str "Read a and b")) = true)
    ∧ str "Read a and b" ∈ processedLines (str "Read a and b")
    ∧ containsL phraseStart (toLowerL (str "Read a and b")) = false := by
  obtain ⟨h1, h2, h3, h4, h5⟩ := C2_normalizer_contract (str "Read a and b")
  exact ⟨h1, h2, by decide, (h5 _ (by decide)).1⟩

/-- Claim C3: the algorithm heading and body are always part of the built
story, and the degenerate normalization is exactly the two synthesized
steps. -/
theorem C3_algorithm_always (r : Record) :
    Block.para (str "<b>ALGORITHM :</b>") StyleName.heading ∈ buildStory r
    ∧ Block.para (alg_html r.algorithm) StyleName.body ∈ buildStory r
    ∧ (processedLines r.algorithm = [] →
        alg_html r.algorithm = str "Step 1: Start the program<br/>Step 2: Stop the program") := by
  have halg : algSection r
      = [Block.para (str "<b>ALGORITHM :</b>") StyleName.heading,
         Block.para (alg_html r.algorithm) StyleName.body] := by
    rw [algSection, if_neg (alg_html_ne_nil r.algorithm)]
  refine ⟨?_, ?_, ?_⟩
  · rw [mem_buildStory_iff]
    right; right; right; left
    rw [halg]
    simp
  · rw [mem_buildStory_iff]
    right; right; right; left
    rw [halg]
    simp
  · intro h
    simp only [alg_html, h]
    decide

/-- Witness for C3 at the all-empty record. -/
theorem C3_witness :
    processedLines (Record.mk [] [] [] [] [] [] [] [] [] []).algorithm = []
    ∧ alg_html (Record.mk [] [] [] [] [] [] [] [] [] []).algorithm
      = str "Step 1: Start the program<br/>Step 2: Stop the program" :=
  ⟨by decide, (C3_algorithm_always (Record.mk [] [] [] [] [] [] [] [] [] [])).2.2 (by decide)⟩

/-- Counterexample to C4 as stated: the line `Step 2 Read a and b` has no
separator after the number, so the regex does not match and the label is
kept — the collected step text is the whole line, not `Read a and b`. -/
theorem C4_counterexample :
    processedLines (str "Step 2 Read a and b") = [str "Step 2 Read a and b"]
    ∧ stripStepLabel (str "Step 2 Read a and b") ≠ str "Read a and b" := by
  constructor
  · decide
  · decide

/-- Claim C4 (amended): the step-label regex requires exactly one
separator character (`:`, `-` or `.`) between the number and the text; a
label followed by a separator is stripped, while a label followed only by
whitespace is left in place. -/
theorem C4_separator_required (n : Nat) (sep : Char) (rest rest2 : List Char)
    (hsep : isSepChar sep = true)
    (hrest : (rest.head?.all fun c => !isPySpace c) = true)
    (hrest2 : (rest2.head?.all fun c => !isPySpace c && !isSepChar c) = true) :
    stripStepLabel (str "Step " ++ natStr n ++ sep :: rest) = rest
    ∧ stripStepLabel (str "Step " ++ natStr n ++ ' ' :: rest2)
      = str "Step " ++ natStr n ++ ' ' :: rest2 := by
  constructor
  · rw [stripStepLabel_sep n sep rest hsep]
    apply dropWhile_eq_self_of
    intro c hc
    rw [hc] at hrest
    simpa using hrest
  · apply stripStepLabel_nosep
    intro c hc
    rw [hc] at hrest2
    simp only [Option.all_some, Bool.and_eq_true, Bool.not_eq_true'] at hrest2
    exact hrest2

/-- Witness for the amended C4: `Step 7:Read x` is stripped, while
`Step 7 Read y` (no separator) is returned unchanged. -/
theorem C4_witness :
    stripStepLabel (str "Step " ++ natStr 7 ++ ':' :: str "Read x") = str "Read x"
    ∧ stripStepLabel (str "Step " ++ natStr 7 ++ ' ' :: str "Read y")
      = str "Step " ++ natStr 7 ++ ' ' :: str "Read y" :=
  C4_separator_required 7 ':' (str "Read x") (str "Read y") (by decide) (by decide) (by decide)

/-- Counterexample to C5 as stated: renormalizing escapes the content a
second time, so `Print a&b` comes back as `Print a&amp;b`. -/
theorem C5_counterexample :
    processedLines (renormInput (str "Print a&b")) ≠ processedLines (str "Print a&b") := by
  decide

/-- Claim C5 (amended): re-normalizing the normalizer's own output
(stripped of the synthesized start/stop lines) yields the same step
content and ordering, provided no collected step contains a character
rewritten by `html.escape` (`&`, `<`, `>`, `"`, `'`); otherwise the
escape is applied a second time. -/
theorem C5_renormalize_idempotent (raw : List Char)
    (h : ∀ c ∈ processedLines raw, noSpecialsB c = true) :
    processedLines (renormInput raw) = processedLines raw := by
  cases hp : processedLines raw with
  | nil =>
    rw [renormInput, middleLines, hp]
    decide
  | cons c0 cs0 =>
    have hgood := processedLines_good raw
    have hnd := processedLines_nodup raw
    have hmne : middleLines raw ≠ [] := by
      rw [middleLines, hp]
      simp
    have hmnl : ∀ l ∈ middleLines raw, '\n' ∉ l := by
      intro l hl
      rw [middleLines] at hl
      rcases List.mem_map.mp hl with ⟨p, hpmem, rfl⟩
      have hp2 : p.2 ∈ processedLines raw := snd_mem_of_mem_enumFrom _ 0 p hpmem
      apply newline_not_mem_stepLine
      rw [escapeL_eq_self _ (h _ hp2)]
      exact (hgood _ hp2).2.2.1
    have hsplit : processedLines (renormInput raw)
        = (middleLines raw).foldl processLine [] := by
      rw [processedLines, renormInput, splitLines_joinNL _ hmne hmnl]
    rw [hsplit, middleLines,
      show (processedLines raw).enum = (processedLines raw).enumFrom 0 from rfl,
      foldl_middle (processedLines raw) 0 [] hgood h (by simpa using hnd)]
    simpa using hp

/-- Witness for the amended C5 at a two-step input without special
characters. -/
theorem C5_witness :
    (∀ c ∈ processedLines (str "Read a\nPrint b"), noSpecialsB c = true)
    ∧ processedLines (renormInput (str "Read a\nPrint b"))
      = processedLines (str "Read a\nPrint b") :=
  ⟨by decide, C5_renormalize_idempotent (str "Read a\nPrint b") (by decide)⟩

/-- Claim C10: every collected middle step has non-empty cleaned text; a
line that is only a step label (`Step 3:`) contributes nothing. -/
theorem C10_no_empty_steps (raw : List Char) :
    (∀ c ∈ processedLines raw, c ≠ [])
    ∧ processedLines (str "Step 3:") = [] := by
  refine ⟨fun c hc => (processedLines_good raw c hc).1, by decide⟩

/-- Witness for C10 at a concrete input. -/
theorem C10_witness :
    str "Read x" ∈ processedLines (str "Read x") ∧ str "Read x" ≠ [] :=
  ⟨by decide, (C10_no_empty_steps (str "Read x")).1 _ (by decide)⟩

/-- Claim C6: a non-empty program of fewer than 15 lines is emitted as one
atomic `KeepTogether` pair (and not as bare blocks); at 15 lines or more
the heading and body are appended separately with no atomic wrapper. -/
theorem C6_program_atomicity (r : Record) (hp : r.program ≠ []) :
    (progLineCount r < 15 →
      Block.keepTogether (programItems r) ∈ buildStory r
      ∧ Block.para (str "<b>PROGRAM :</b>") StyleName.heading ∉ buildStory r)
    ∧ (15 ≤ progLineCount r →
      Block.para (str "<b>PROGRAM :</b>") StyleName.heading ∈ buildStory r
      ∧ Block.para (safe_text r.program) StyleName.body ∈ buildStory r
      ∧ Block.keepTogether (programItems r) ∉ buildStory r) := by
  constructor
  · intro h15
    have hps : programSection r = [Block.keepTogether (programItems r)] := by
      rw [programSection, if_neg hp, if_pos h15]
    constructor
    · rw [mem_buildStory_iff]
      right; right; right; right; left
      rw [hps]
      simp
    · intro hmem
      rcases (mem_buildStory_iff r _).mp hmem with h | h | h | h | h | h | h
      · rw [headerBlock] at h; exact Block.noConfusion h
      · exact Block.noConfusion h
      · rw [aimSection] at h
        split at h
        · simp at h
        · simp only [List.mem_cons, List.not_mem_nil, or_false] at h
          rcases h with h | h
          · injection h with h1 h2; exact absurd h1 (by decide)
          · injection h with h1 h2; exact StyleName.noConfusion h2
      · rw [algSection, if_neg (alg_html_ne_nil r.algorithm)] at h
        simp only [List.mem_cons, List.not_mem_nil, or_false] at h
        rcases h with h | h
        · injection h with h1 h2; exact absurd h1 (by decide)
        · injection h with h1 h2; exact StyleName.noConfusion h2
      · rw [hps] at h
        simp only [List.mem_singleton] at h
        exact Block.noConfusion h
      · rw [outputSection] at h
        split at h
        · simp at h
        · simp only [List.mem_cons, List.not_mem_nil, or_false] at h
          rcases h with h | h
          · injection h with h1 h2; exact absurd h1 (by decide)
          · injection h with h1 h2; exact StyleName.noConfusion h2
      · rw [resultSection] at h
        split at h
        · simp at h
        · simp only [List.mem_cons, List.not_mem_nil, or_false] at h
          rcases h with h | h
          · exact Block.noConfusion h
          · exact Block.noConfusion h
  · intro h15
    have hps : programSection r
        = [Block.para (str "<b>PROGRAM :</b>") StyleName.heading,
           Block.para (safe_text r.program) StyleName.body] := by
      rw [programSection, if_neg hp, if_neg (by omega : ¬ progLineCount r < 15)]
    refine ⟨?_, ?_, ?_⟩
    · rw [mem_buildStory_iff]
      right; right; right; right; left
      rw [hps]
      simp
    · rw [mem_buildStory_iff]
      right; right; right; right; left
      rw [hps]
      simp
    · intro hmem
      rcases (mem_buildStory_iff r _).mp hmem with h | h | h | h | h | h | h
      · rw [headerBlock] at h; exact Block.noConfusion h
      · exact Block.noConfusion h
      · rw [aimSection] at h
        split at h
        · simp at h
        · simp only [List.mem_cons, List.not_mem_nil, or_false] at h
          rcases h with h | h
          · exact Block.noConfusion h
          · exact Block.noConfusion h
      · rw [algSection, if_neg (alg_html_ne_nil r.algorithm)] at h
        simp only [List.mem_cons, List.not_mem_nil, or_false] at h
        rcases h with h | h
        · exact Block.noConfusion h
        · exact Block.noConfusion h
      · rw [hps] at h
        simp only [List.mem_cons, List.not_mem_nil, or_false] at h
        rcases h with h | h
        · exact Block.noConfusion h
        · exact Block.noConfusion h
      · rw [outputSection] at h
        split at h
        · simp at h
        · simp only [List.mem_cons, List.not_mem_nil, or_false] at h
          rcases h with h | h
          · exact Block.noConfusion h
          · exact Block.noConfusion h
      · rw [resultSection] at h
        split at h
        · simp at h
        · simp only [List.mem_cons, List.not_mem_nil, or_false] at h
          rcases h with h | h
          · exact Block.noConfusion h
          · injection h with h1
            rw [programItems, resultItems] at h1
            injection h1 with h2 h3
            injection h2 with h4 h5
            exact absurd h4 (by decide)

/-- Witness for C6: a one-line program is wrapped atomically; a 15-line
program is not. -/
theorem C6_witness :
    Block.keepTogether (programItems (Record.mk [] [] [] [] [] [] [] (str "int x;") [] []))
      ∈ buildStory (Record.mk [] [] [] [] [] [] [] (str "int x;") [] [])
    ∧ Block.keepTogether (programItems (Record.mk [] [] [] [] [] [] []
          (str "a\nb\nc\nd\ne\nf\ng\nh\ni\nj\nk\nl\nm\nn\no") [] []))
      ∉ buildStory (Record.mk [] [] [] [] [] [] []
          (str "a\nb\nc\nd\ne\nf\ng\nh\ni\nj\nk\nl\nm\nn\no") [] []) := by
  constructor
  · exact ((C6_program_atomicity (Record.mk [] [] [] [] [] [] [] (str "int x;") [] [])
      (by decide)).1 (by decide)).1
  · exact ((C6_program_atomicity (Record.mk [] [] [] [] [] [] []
      (str "a\nb\nc\nd\ne\nf\ng\nh\ni\nj\nk\nl\nm\nn\no") [] [])
      (by decide)).2 (by decide)).2.2

/-- Claim C7: for a non-empty output field the story holds the output
heading and a terminal-styled body containing the label-stripped, escaped
text; on `OUTPUT: Hello World` the stripped text is `Hello World`. -/
theorem C7_output_section (r : Record) (ho : r.output ≠ []) :
    Block.para (str "<b>OUTPUT :</b>") StyleName.heading ∈ buildStory r
    ∧ Block.para (safe_text (outClean r.output)) StyleName.turboC ∈ buildStory r
    ∧ outClean (str "OUTPUT: Hello World") = str "Hello World" := by
  have hos : outputSection r
      = [Block.para (str "<b>OUTPUT :</b>") StyleName.heading,
         Block.para (safe_text (outClean r.output)) StyleName.turboC] := by
    rw [outputSection, if_neg ho]
  refine ⟨?_, ?_, by decide⟩
  · rw [mem_buildStory_iff]
    right; right; right; right; right; left
    rw [hos]
    simp
  · rw [mem_buildStory_iff]
    right; right; right; right; right; left
    rw [hos]
    simp

/-- Witness for C7 at a record whose output field carries the label. -/
theorem C7_witness :
    Block.para (str "<b>OUTPUT :</b>") StyleName.heading
      ∈ buildStory (Record.mk [] [] [] [] [] [] [] [] (str "OUTPUT: Hello World") [])
    ∧ Block.para (safe_text (str "Hello World")) StyleName.turboC
      ∈ buildStory (Record.mk [] [] [] [] [] [] [] [] (str "OUTPUT: Hello World") []) := by
  have h := C7_output_section
    (Record.mk [] [] [] [] [] [] [] [] (str "OUTPUT: Hello World") []) (by decide)
  refine ⟨h.1, ?_⟩
  have h2 := h.2.1
  rw [show outClean (Record.mk [] [] [] [] [] [] [] [] (str "OUTPUT: Hello World") []).output
      = str "Hello World" from by decide] at h2
  exact h2

/-- Claim C8: the generated document has the same story whether or not the
watermark file exists; with the file present the page decorator issues
exactly one extra command, the watermark image centered on the page at
one-tenth opacity; with it absent nothing fails and the command list is
simply shorter. -/
theorem C8_watermark_resilience (r : Record) :
    (generateDocument r true).1 = (generateDocument r false).1
    ∧ (generateDocument r true).2
      = (generateDocument r false).2
        ++ [DrawCmd.image ((A4w - 5 * inchQ) / 2) ((A4h - 5 * inchQ) / 2)
              (5 * inchQ) (5 * inchQ) (1 / 10)] := by
  constructor
  · rfl
  · simp [generateDocument, draw_decorations]

/-- Claim C9: the output-label regex needs no word boundary after
`output`, so a field whose first word merely begins with `output` loses
genuine content characters. -/
theorem C9_label_overcapture :
    outClean (str "Outputs are correct") = str "s are correct"
    ∧ safe_text (outClean (str "Outputs are correct")) = str "s are correct" := by
  constructor
  · decide
  · decide
